import Mathlib

/-!
Verification of the dl-workshop teaching corpus: the Gaussian mixture-model
likelihood engine, the scan-based optimization driver, the pure-Python
Gaussian random walk, and the linear-regression mean-squared-error loss.

Vectors are modelled as lists of real numbers; `vmap` is elementwise mapping;
`lax.scan` is an explicit structural recursion carrying a loop state.
-/

namespace DlWorkshop

/-! ## Optimization driver: scan, run, run_many -/

/-- Model of `jax.lax.scan`: folds `f` over the index list `xs`, threading the
carry `s` and collecting the per-step outputs in order. -/
def scan {S Y : Type _} (f : S → Nat → S × Y) : S → List Nat → S × List Y
  | s, [] => (s, [])
  | s, x :: xs =>
    let r := f s x
    let rest := scan f r.1 xs
    (rest.1, r.2 :: rest.2)

/-- Modelled from the spec: `make_step_scannable` / `make_scannable_step`
(source module `dl_workshop` is not in the corpus) wraps an indexed update
`step` into a scannable body that returns the new state both as the carry and
as the per-iteration output. -/
def make_step_scannable {S : Type _} (step : Nat → S → S) : S → Nat → S × S :=
  fun s i => (step i s, step i s)

/-- Modelled from the spec: `run(initial_state, data, num_iterations)` is
`lax.scan` of the scannable step over the index sequence `0, ..., n-1`
(the data is already bound inside `step`), returning the terminal state and
the per-iteration state history. -/
def run {S : Type _} (step : Nat → S → S) (init : S) (n : Nat) : S × List S :=
  scan (make_step_scannable step) init (List.range n)

/-- Modelled from the spec: `run_many` is the data-parallel (vmapped) batched
execution of `run`: a single scan whose carry is the whole batch of states,
each step updating every run's state elementwise. Histories come out
time-major: entry `t` holds every run's state after step `t`. -/
def run_many {S : Type _} (step : Nat → S → S) (inits : List S) (n : Nat) :
    List S × List (List S) :=
  scan (make_step_scannable (fun i ss => ss.map (step i))) inits (List.range n)

/-- The state after folding `step` over indices `0, ..., n-1`. -/
def stepsUpTo {S : Type _} (step : Nat → S → S) (n : Nat) (init : S) : S :=
  (List.range n).foldl (fun s i => step i s) init

/-- The list of intermediate states produced by folding `g` over `xs`. -/
def scanStates {S : Type _} (g : Nat → S → S) : S → List Nat → List S
  | _, [] => []
  | s, x :: xs => g x s :: scanStates g (g x s) xs

theorem scan_diag {S : Type _} (g : Nat → S → S) (s : S) (xs : List Nat) :
    scan (make_step_scannable g) s xs
      = (xs.foldl (fun s i => g i s) s, scanStates g s xs) := by
  induction xs generalizing s with
  | nil => rfl
  | cons x xs ih => simp [scan, make_step_scannable, scanStates, List.foldl, ih]

theorem scanStates_length {S : Type _} (g : Nat → S → S) (s : S) (xs : List Nat) :
    (scanStates g s xs).length = xs.length := by
  induction xs generalizing s with
  | nil => rfl
  | cons x xs ih => simp [scanStates, ih]

theorem getLast?_cons_ne {α : Type _} (a : α) (l : List α) (h : l ≠ []) :
    (a :: l).getLast? = l.getLast? := by
  cases l with
  | nil => exact absurd rfl h
  | cons b bs => exact List.getLast?_cons_cons

theorem scanStates_getLast? {S : Type _} (g : Nat → S → S) (s : S) (xs : List Nat)
    (h : xs ≠ []) :
    (scanStates g s xs).getLast? = some (xs.foldl (fun s i => g i s) s) := by
  induction xs generalizing s with
  | nil => exact absurd rfl h
  | cons x xs ih =>
    cases xs with
    | nil => rfl
    | cons y ys =>
      rw [scanStates, getLast?_cons_ne _ _ (by simp [scanStates])]
      exact ih (g x s) (by simp)

theorem scanStates_getD {S : Type _} (g : Nat → S → S) (s d : S) (xs : List Nat)
    (t : Nat) (ht : t < xs.length) :
    (scanStates g s xs).getD t d
      = (xs.take (t + 1)).foldl (fun s i => g i s) s := by
  induction xs generalizing s t with
  | nil => exact absurd ht (by simp)
  | cons x xs ih =>
    cases t with
    | zero => rfl
    | succ t =>
      rw [scanStates, List.getD_cons_succ, List.take_succ_cons, List.foldl_cons]
      exact ih (g x s) t (by simpa using ht)

theorem foldl_batch {S : Type _} (g : Nat → S → S) (inits : List S) (xs : List Nat) :
    xs.foldl (fun ss i => ss.map (g i)) inits
      = inits.map (fun s => xs.foldl (fun s i => g i s) s) := by
  induction xs generalizing inits with
  | nil => simp
  | cons x xs ih => simp [List.foldl_cons, ih, List.map_map, Function.comp]

theorem getD_map_lt {α β : Type _} (f : α → β) (l : List α) (j : Nat) (hj : j < l.length)
    (d : α) (d' : β) : (l.map f).getD j d' = f (l.getD j d) := by
  rw [List.getD_eq_getElem?_getD, List.getElem?_map, List.getD_eq_getElem?_getD,
    List.getElem?_eq_getElem hj]
  rfl

/-- C2: `run` folds `step` over `n` sequential indices from the initial state
and returns the terminal state together with the ordered history of every
intermediate state; the history has length exactly `n`, its entry `t` is the
state after steps `0..t`, and its last element is the terminal state. -/
theorem run_spec {S : Type _} (step : Nat → S → S) (init d : S) (n : Nat) :
    (run step init n).1 = stepsUpTo step n init ∧
    (run step init n).2.length = n ∧
    (∀ t, t < n → (run step init n).2.getD t d = stepsUpTo step (t + 1) init) ∧
    (0 < n → (run step init n).2.getLast? = some ((run step init n).1)) := by
  rw [run, scan_diag]
  refine ⟨rfl, by simp [scanStates_length], ?_, ?_⟩
  · intro t ht
    rw [scanStates_getD _ _ _ _ t (by simpa using ht), List.take_range, stepsUpTo,
      Nat.min_eq_left ht]
  · intro hn
    exact scanStates_getLast? _ _ _ (by simpa using hn.ne')

/-- Witness for C2: two iterations of a concrete step over the naturals. -/
theorem run_spec_witness :
    (run (fun i s => s + i) 0 2).2.getD 1 0 = stepsUpTo (fun i s => s + i) 2 0 :=
  ((run_spec (fun i s => s + i) 0 0 2).2.2.1) 1 (by decide)

/-- C3: the batched driver `run_many` (the vmapped training loop) gives, for
each initial state in the batch, the same final state and the same
per-iteration state history as one independent call of `run` on that single
initial state. -/
theorem run_many_spec {S : Type _} (step : Nat → S → S) (inits : List S) (d : S)
    (n j t : Nat) (hj : j < inits.length) (ht : t < n) :
    (run_many step inits n).1.getD j d = (run step (inits.getD j d) n).1 ∧
    ((run_many step inits n).2.getD t []).getD j d
      = (run step (inits.getD j d) n).2.getD t d := by
  rw [run_many, run, scan_diag, scan_diag]
  constructor
  · show ((List.range n).foldl (fun ss i => ss.map (step i)) inits).getD j d
      = (List.range n).foldl (fun s i => step i s) (inits.getD j d)
    rw [foldl_batch, getD_map_lt _ _ j hj d]
  · show ((scanStates (fun i ss => ss.map (step i)) inits (List.range n)).getD t []).getD j d
      = (scanStates step (inits.getD j d) (List.range n)).getD t d
    rw [scanStates_getD _ _ _ _ t (by simpa using ht),
      scanStates_getD _ _ _ _ t (by simpa using ht), List.take_range,
      Nat.min_eq_left ht, foldl_batch, getD_map_lt _ _ j hj d]

/-- Witness for C3: a batch of two initial states, two iterations, comparing
the second run's final state and second history entry against a lone run. -/
theorem run_many_spec_witness :
    (run_many (fun i s => s + i) [0, 5] 2).1.getD 1 0
      = (run (fun i s => s + i) (([0, 5] : List Nat).getD 1 0) 2).1 ∧
    ((run_many (fun i s => s + i) [0, 5] 2).2.getD 1 []).getD 1 0
      = (run (fun i s => s + i) (([0, 5] : List Nat).getD 1 0) 2).2.getD 1 0 :=
  run_many_spec (fun i s => s + i) [0, 5] 0 2 1 1 (by decide) (by decide)

/-! ## Pure-Python Gaussian random walk (src/unnamed/part_000) -/

/-- One draw of `onp.random.normal(loc=prev_draw)`: the location parameter
plus a unit-normal noise value taken from the stream. -/
def normalDraw (loc noise : ℝ) : ℝ := loc + noise

/-- The inner loop of `gaussian_random_walk_python`: starting from `prev`,
draw `t` times, each draw centred at the previous one, consuming the noise
stream from index `k` on. -/
def rwSteps (noise : Nat → ℝ) (k : Nat) (prev : ℝ) : Nat → List ℝ
  | 0 => []
  | t + 1 => normalDraw prev (noise k) :: rwSteps noise (k + 1) (normalDraw prev (noise k)) t

/-- `gaussian_random_walk_python(num_realizations, num_timesteps)`: for each
realization, run the inner walk starting from `prev_draw = 0`; realization `i`
consumes the stream entries `i*T, ..., i*T + T - 1` (the global generator is
consumed sequentially across realizations). -/
def gaussian_random_walk_python (noise : Nat → ℝ) (num_realizations num_timesteps : Nat) :
    List (List ℝ) :=
  (List.range num_realizations).map (fun i => rwSteps noise (i * num_timesteps) 0 num_timesteps)

theorem rwSteps_length (noise : Nat → ℝ) (k : Nat) (prev : ℝ) (t : Nat) :
    (rwSteps noise k prev t).length = t := by
  induction t generalizing k prev with
  | zero => rfl
  | succ t ih => simp [rwSteps, ih]

/-- C9: `gaussian_random_walk_python` returns exactly `num_realizations`
trajectories, each of exactly `num_timesteps` draws; each trajectory's first
draw is sampled with location 0 (every walk starts from the origin), and with
zero timesteps every trajectory is the empty list. -/
theorem gaussian_random_walk_python_shape (noise : Nat → ℝ) (R T : Nat) :
    (gaussian_random_walk_python noise R T).length = R ∧
    (∀ i, i < R → ((gaussian_random_walk_python noise R T).getD i []).length = T) ∧
    (∀ i, i < R → 0 < T →
      ((gaussian_random_walk_python noise R T).getD i []).head?
        = some (normalDraw 0 (noise (i * T)))) ∧
    (T = 0 → ∀ i, i < R → (gaussian_random_walk_python noise R T).getD i [] = []) := by
  have hget : ∀ i, i < R →
      (gaussian_random_walk_python noise R T).getD i [] = rwSteps noise (i * T) 0 T := by
    intro i hi
    rw [gaussian_random_walk_python, List.getD_eq_getElem?_getD]
    rw [List.getElem?_map, List.getElem?_range hi]
    rfl
  refine ⟨by simp [gaussian_random_walk_python], ?_, ?_, ?_⟩
  · intro i hi; rw [hget i hi]; exact rwSteps_length noise (i * T) 0 T
  · intro i hi hT
    rw [hget i hi]
    cases T with
    | zero => exact absurd hT (by simp)
    | succ t => rfl
  · intro hT i hi
    subst hT
    rw [hget i hi]
    rfl

/-- Witness for C9 at a concrete noise stream, two realizations, one timestep. -/
theorem gaussian_random_walk_python_shape_witness :
    ((gaussian_random_walk_python (fun k => (k : ℝ)) 2 1).getD 1 []).head?
      = some (normalDraw 0 ((1 * 1 : Nat) : ℝ)) :=
  (gaussian_random_walk_python_shape (fun k => (k : ℝ)) 2 1).2.2.1 1 (by decide) (by decide)

/-! ## Likelihood engine (dl_workshop.gaussian_mixture, shown but not shipped
in the corpus; definitions follow the spec's operation contracts) -/

/-- Log-density of a Gaussian with the given location and scale:
`-(x-loc)^2/(2 scale^2) - log(sqrt(2 pi) * scale)`. -/
noncomputable def norm_logpdf (x loc scale : ℝ) : ℝ :=
  -((x - loc) ^ 2 / (2 * scale ^ 2)) - Real.log (Real.sqrt (2 * Real.pi) * scale)

/-- Modelled from the spec: `component_log_likelihood` / `loglike_one_component`
returns `log(weight) + logpdf_normal(datum; mean, exp(log_scale))`. -/
noncomputable def loglike_one_component
    (component_weight component_mu log_component_scale datum : ℝ) : ℝ :=
  Real.log component_weight + norm_logpdf datum component_mu (Real.exp log_component_scale)

/-- Log-sum-exp, `log (sum_i exp x_i)`; in exact real arithmetic the
max-subtraction stabilization of the source is an identity. -/
noncomputable def logsumexp (xs : List ℝ) : ℝ :=
  Real.log ((xs.map Real.exp).sum)

/-- Modelled from the spec: normalizing `log_weights` into probabilities in
log space, by subtracting the log-sum-exp of the log-weights. -/
noncomputable def normalize_log_weights (log_weights : List ℝ) : List ℝ :=
  log_weights.map (fun a => a - logsumexp log_weights)

/-- Modelled from the spec: `mixture_component_log_likelihood` /
`loglike_across_components` normalizes the log-weights, evaluates
`loglike_one_component` for every component against the same datum, and
combines the per-component log-likelihoods with log-sum-exp. -/
noncomputable def loglike_across_components
    (log_component_weights component_mus log_component_scales : List ℝ) (datum : ℝ) : ℝ :=
  logsumexp
    (((normalize_log_weights log_component_weights).zip
        (component_mus.zip log_component_scales)).map
      (fun t => loglike_one_component (Real.exp t.1) t.2.1 t.2.2 datum))

/-- Modelled from the spec: `total_log_likelihood` / `mixture_loglike` applies
`loglike_across_components` to every datum and sums the results. -/
noncomputable def mixture_loglike
    (log_component_weights component_mus log_component_scales data : List ℝ) : ℝ :=
  (data.map
    (loglike_across_components log_component_weights component_mus log_component_scales)).sum

/-- Log of the Dirichlet normalizing constant for concentration `alpha`. -/
noncomputable def dirichlet_log_norm_const (alpha : List ℝ) : ℝ :=
  Real.log (Real.Gamma alpha.sum) - (alpha.map (fun a => Real.log (Real.Gamma a))).sum

/-- Modelled from the spec: `weights_log_prior` / `weights_loglike` normalizes
the log-weights to (log-)probabilities and returns the Dirichlet log-density
with concentration `alpha` at those probabilities:
`sum_i (alpha_i - 1) * log p_i` plus the log normalizing constant. -/
noncomputable def weights_loglike (log_weights alpha : List ℝ) : ℝ :=
  ((alpha.zip (normalize_log_weights log_weights)).map (fun p => (p.1 - 1) * p.2)).sum
    + dirichlet_log_norm_const alpha

/-- Modelled from the spec: `negative_log_posterior` / `loss_mixture_weights`
with the Dirichlet concentration `alpha_prior` threaded as an explicit
argument (the spec corrects the source's hard-coding of the prior). -/
noncomputable def loss_mixture_weights (params : List ℝ × List ℝ × List ℝ)
    (data alpha_prior : List ℝ) : ℝ :=
  -(mixture_loglike params.1 params.2.1 params.2.2 data
    + weights_loglike params.1 alpha_prior)

/-- C1: `loss_mixture_weights` takes `alpha_prior` as an explicit argument and
returns the negation of the sum of the total log-likelihood of the data and
the log-prior of the weights under that `alpha_prior`. -/
theorem loss_mixture_weights_spec (params : List ℝ × List ℝ × List ℝ)
    (data alpha_prior : List ℝ) :
    loss_mixture_weights params data alpha_prior
      = -(mixture_loglike params.1 params.2.1 params.2.2 data
          + weights_loglike params.1 alpha_prior) := rfl

/-- C4: `loglike_one_component` of a weight in `(0,1]`, mean, log-scale and
datum is `log(weight)` plus the Gaussian log-density of the datum with mean
`mean` and standard deviation `exp(log_scale)`; at weight 1, mean 0,
log-scale 0, datum 0 it is the standard normal log-density at 0, that is
`-log(sqrt(2 pi))` (approximately -0.9189). -/
theorem loglike_one_component_spec (w m s x : ℝ) (hw0 : 0 < w) (hw1 : w ≤ 1) :
    loglike_one_component w m s x = Real.log w + norm_logpdf x m (Real.exp s) ∧
    loglike_one_component 1 0 0 0 = norm_logpdf 0 0 1 ∧
    norm_logpdf 0 0 1 = -Real.log (Real.sqrt (2 * Real.pi)) := by
  refine ⟨rfl, ?_, ?_⟩
  · simp [loglike_one_component, Real.exp_zero]
  · simp [norm_logpdf]

/-- Witness for C4 at weight 1, mean 0, log-scale 0, datum 0. -/
theorem loglike_one_component_spec_witness :
    loglike_one_component 1 0 0 0 = Real.log 1 + norm_logpdf 0 0 (Real.exp 0) ∧
    loglike_one_component 1 0 0 0 = norm_logpdf 0 0 1 ∧
    norm_logpdf 0 0 1 = -Real.log (Real.sqrt (2 * Real.pi)) :=
  loglike_one_component_spec 1 0 0 0 one_pos le_rfl

/-- C5: on a one-component mixture, `loglike_across_components` reduces to
`loglike_one_component` of that single component with normalized weight 1,
because log-sum-exp over a single term is the identity. -/
theorem loglike_across_components_single (lw m s x : ℝ) :
    loglike_across_components [lw] [m] [s] x = loglike_one_component 1 m s x := by
  simp [loglike_across_components, normalize_log_weights, logsumexp,
    Real.log_exp, Real.exp_zero, sub_self]

/-- C6: `mixture_loglike` is invariant under any permutation of the data,
because it sums independent per-datum terms. -/
theorem mixture_loglike_perm (lw mus ls d1 d2 : List ℝ) (h : d1.Perm d2) :
    mixture_loglike lw mus ls d1 = mixture_loglike lw mus ls d2 := by
  rw [mixture_loglike, mixture_loglike]
  exact (h.map _).sum_eq

/-- Witness for C6 on a concrete two-element data swap. -/
theorem mixture_loglike_perm_witness :
    mixture_loglike [0] [0] [0] [0, 1] = mixture_loglike [0] [0] [0] [1, 0] :=
  mixture_loglike_perm [0] [0] [0] [0, 1] [1, 0] (List.Perm.swap 1 0 [])

theorem sum_map_exp_pos (lw : List ℝ) (h : lw ≠ []) : 0 < (lw.map Real.exp).sum := by
  cases lw with
  | nil => exact absurd rfl h
  | cons a l =>
    rw [List.map_cons, List.sum_cons]
    refine add_pos_of_pos_of_nonneg (Real.exp_pos a) (List.sum_nonneg ?_)
    intro x hx
    obtain ⟨y, _, rfl⟩ := List.mem_map.mp hx
    exact (Real.exp_pos y).le

theorem logsumexp_shift (lw : List ℝ) (c : ℝ) (h : lw ≠ []) :
    logsumexp (lw.map (fun a => a + c)) = logsumexp lw + c := by
  rw [logsumexp, logsumexp, List.map_map]
  have hmul : (lw.map (Real.exp ∘ fun a => a + c)).sum = (lw.map Real.exp).sum * Real.exp c := by
    rw [show Real.exp ∘ (fun a => a + c) = fun a => Real.exp a * Real.exp c from
      funext fun a => Real.exp_add a c]
    exact List.sum_map_mul_right lw Real.exp (Real.exp c)
  rw [hmul, Real.log_mul (ne_of_gt (sum_map_exp_pos lw h)) (Real.exp_ne_zero c), Real.log_exp]

theorem normalize_log_weights_shift (lw : List ℝ) (c : ℝ) (h : lw ≠ []) :
    normalize_log_weights (lw.map (fun a => a + c)) = normalize_log_weights lw := by
  rw [normalize_log_weights, normalize_log_weights, logsumexp_shift lw c h, List.map_map]
  congr 1
  funext a
  simp only [Function.comp_apply]
  ring

/-- C7: adding a constant to every entry of `log_weights` leaves
`weights_loglike` unchanged, because the normalization divides out the common
factor `exp(c)`. -/
theorem weights_loglike_shift (log_weights alpha : List ℝ) (c : ℝ)
    (hne : log_weights ≠ []) (hlen : alpha.length = log_weights.length) :
    weights_loglike (log_weights.map (fun a => a + c)) alpha
      = weights_loglike log_weights alpha := by
  rw [weights_loglike, weights_loglike, normalize_log_weights_shift _ _ hne]

/-- Witness for C7: shifting a one-component log-weight vector by 1 under a
concentration-2 prior. -/
theorem weights_loglike_shift_witness :
    weights_loglike (([0] : List ℝ).map (fun a => a + 1)) [2] = weights_loglike [0] [2] :=
  weights_loglike_shift [0] [2] 1 (by simp) rfl

/-! ## Shape checking (spec's error taxonomy, section 7) -/

/-- Modelled from the spec: a likelihood-engine entry point must fail fast
with a descriptive error when the Parameters vectors have unequal lengths,
never silently broadcasting or truncating. -/
noncomputable def mixture_loglike_checked (lw mus ls data : List ℝ) : Except String ℝ :=
  if lw.length = mus.length ∧ mus.length = ls.length then
    Except.ok (mixture_loglike lw mus ls data)
  else Except.error "shape mismatch: parameter vectors must have equal lengths"

/-- Modelled from the spec: `weights_log_prior` must fail fast when the
length of `alpha_prior` differs from the number of components. -/
noncomputable def weights_loglike_checked (lw alpha : List ℝ) : Except String ℝ :=
  if alpha.length = lw.length then Except.ok (weights_loglike lw alpha)
  else Except.error "shape mismatch: alpha_prior length must equal the number of components"

/-- C8: on Parameters vectors of unequal lengths, or an `alpha_prior` whose
length differs from the component count, the checked likelihood-engine
operations return a descriptive error and never a value. -/
theorem checked_shape_errors (lw mus ls data alpha : List ℝ)
    (hp : ¬(lw.length = mus.length ∧ mus.length = ls.length))
    (ha : alpha.length ≠ lw.length) :
    mixture_loglike_checked lw mus ls data
      = Except.error "shape mismatch: parameter vectors must have equal lengths" ∧
    weights_loglike_checked lw alpha
      = Except.error "shape mismatch: alpha_prior length must equal the number of components" := by
  constructor
  · rw [mixture_loglike_checked, if_neg hp]
  · rw [weights_loglike_checked, if_neg ha]

/-- Witness for C8: a one-component log-weight vector against empty means,
scales and prior. -/
theorem checked_shape_errors_witness :
    mixture_loglike_checked [0] [] [] []
      = Except.error "shape mismatch: parameter vectors must have equal lengths" ∧
    weights_loglike_checked [0] []
      = Except.error "shape mismatch: alpha_prior length must equal the number of components" :=
  checked_shape_errors [0] [] [] [] [] (by decide) (by decide)

/-! ## Linear-regression loss (src/notebooks/03-stax/01-linear.ipynb) -/

/-- `mseloss(params, model, x, y_true)`: the mean of the squared differences
between the vmapped model predictions on `x` and the targets `y_true`. -/
noncomputable def mseloss {P α : Type _} (params : P) (model : P → α → ℝ)
    (x : List α) (y_true : List ℝ) : ℝ :=
  ((((x.map (model params)).zip y_true).map (fun p => (p.1 - p.2) ^ 2)).sum)
    / (x.length : ℝ)

theorem sum_eq_zero_iff_of_nonneg (l : List ℝ) (hl : ∀ a ∈ l, 0 ≤ a) :
    l.sum = 0 ↔ ∀ a ∈ l, a = 0 := by
  induction l with
  | nil => simp
  | cons a l ih =>
    have ha : 0 ≤ a := hl a (by simp)
    have hl' : ∀ b ∈ l, 0 ≤ b := fun b hb => hl b (by simp [hb])
    have hs : 0 ≤ l.sum := List.sum_nonneg hl'
    simp only [List.sum_cons, List.mem_cons, forall_eq_or_imp]
    constructor
    · intro h
      have ha0 : a = 0 := by linarith
      exact ⟨ha0, (ih hl').mp (by linarith)⟩
    · rintro ⟨rfl, h⟩
      rw [(ih hl').mpr h, add_zero]

/-- C10: for prediction and target lists of matching shape, `mseloss` is the
mean of the squared differences between the vmapped predictions and the
targets; it is nonnegative, and it is 0 exactly when every prediction equals
its target. -/
theorem mseloss_spec {P α : Type _} (params : P) (model : P → α → ℝ)
    (x : List α) (y_true : List ℝ) (hlen : x.length = y_true.length) :
    mseloss params model x y_true
      = (((x.map (model params)).zip y_true).map (fun p => (p.1 - p.2) ^ 2)).sum
        / (x.length : ℝ) ∧
    0 ≤ mseloss params model x y_true ∧
    (mseloss params model x y_true = 0 ↔
      ∀ p ∈ (x.map (model params)).zip y_true, p.1 = p.2) := by
  have hterms : ∀ a ∈ ((x.map (model params)).zip y_true).map (fun p => (p.1 - p.2) ^ 2),
      0 ≤ a := by
    intro a ha
    obtain ⟨p, _, rfl⟩ := List.mem_map.mp ha
    exact sq_nonneg _
  refine ⟨rfl, div_nonneg (List.sum_nonneg hterms) (Nat.cast_nonneg _), ?_⟩
  rw [mseloss]
  by_cases hx : x = []
  · subst hx
    simp
  · have hn : (0 : ℝ) < (x.length : ℝ) := by
      exact_mod_cast Nat.pos_of_ne_zero (fun h => hx (List.length_eq_zero.mp h))
    rw [div_eq_zero_iff]
    simp only [hn.ne', or_false]
    rw [sum_eq_zero_iff_of_nonneg _ hterms]
    constructor
    · intro h p hp
      have h0 := h _ (List.mem_map.mpr ⟨p, hp, rfl⟩)
      exact sub_eq_zero.mp (pow_eq_zero_iff two_ne_zero |>.mp h0)
    · intro h a ha
      obtain ⟨p, hp, rfl⟩ := List.mem_map.mp ha
      rw [h p hp, sub_self]
      norm_num

/-- Witness for C10: a one-point dataset fit exactly by the model. -/
theorem mseloss_spec_witness :
    0 ≤ mseloss (1 : ℝ) (fun p a => p * a) [1] [(1 : ℝ)] :=
  (mseloss_spec (1 : ℝ) (fun p a => p * a) [1] [(1 : ℝ)] rfl).2.1

end DlWorkshop
